import Mathlib

/-!
# Private FHE messenger: formal model and verification

A shallow embedding of the core of the private-messenger repository:

* the message codec (`stringToBigInt` / `stringToBigInt64` in the frontend
  hooks, and `bigIntToString` in `useDecrypt`), including a model of the
  platform UTF-8 encoder (`TextEncoder`) and of the WHATWG UTF-8 decoder
  (`TextDecoder`, both in its default replacement mode and in fatal mode);
* the `PrivateMessenger` Solidity contract (`sendMessage`, the inbox/outbox
  storage, the FHE ACL grants, and the read accessors);
* the client-side decryption orchestration (`useDecrypt.decrypt`,
  `decryptAllInbox`, `decryptInboxMessage`), modelled as pure state
  transformers plus an explicit trace of the external calls they make.

Bytes are `Nat` values below 256, payloads are `Nat` values below `2^(8*L)`,
addresses and ciphertext handles are `Nat`, and JS strings are modelled as
lists of Unicode scalar values (`Nat` codepoints).
-/

namespace Messenger

/-! ## Byte-level codec

`stringToBigInt` (useEncrypt, 32-byte variant) does:
`paddedBytes = new Uint8Array(32); paddedBytes.set(messageBytes.slice(0, 32))`
and then reads the buffer as a big-endian hex number.
`stringToBigInt64` (8-byte variant) is identical with width 8.
-/

/-- Model of `paddedBytes.set(messageBytes.slice(0, L))` on a fresh zero
`Uint8Array(L)`: truncate to `L` bytes, then right-pad with zero bytes to
exactly `L` bytes. Writing into a `Uint8Array` stores each value mod 256. -/
def padBytes (bs : List Nat) (L : Nat) : List Nat :=
  (bs.take L).map (fun b => b % 256) ++
    List.replicate (L - (bs.take L).length) 0

/-- Reading a byte buffer as a big-endian integer: the value of the
hex string formed by the two-digit hex expansions of the bytes in order. -/
def beNat (bs : List Nat) : Nat :=
  bs.foldl (fun acc b => acc * 256 + b) 0

/-- Model of `stringToBigInt` (useEncrypt.ts, euint256 variant): truncate the
UTF-8 bytes of the message to 32 bytes, zero-pad to 32 bytes, read big-endian.
The argument is the byte sequence produced by `TextEncoder` on the message. -/
def stringToBigInt (messageBytes : List Nat) : Nat :=
  beNat (padBytes messageBytes 32)

/-- Model of `stringToBigInt64` (useEncrypt.ts, euint64 variant): truncate the
UTF-8 bytes of the message to 8 bytes, zero-pad to 8 bytes, read big-endian. -/
def stringToBigInt64 (messageBytes : List Nat) : Nat :=
  beNat (padBytes messageBytes 8)

/-- The common L-byte encoder both functions instantiate. -/
def encodeBytes (L : Nat) (messageBytes : List Nat) : Nat :=
  beNat (padBytes messageBytes L)

theorem stringToBigInt_eq_encodeBytes (bs : List Nat) :
    stringToBigInt bs = encodeBytes 32 bs := rfl

theorem stringToBigInt64_eq_encodeBytes (bs : List Nat) :
    stringToBigInt64 bs = encodeBytes 8 bs := rfl

/-- Model of `value.toString(16).padStart(2*L, "0")` sliced into `L` two-digit
groups: the big-endian `L`-byte rendering of a payload `v < 2^(8*L)`
(decrypted `euint` values are always in range for their width). -/
def toBEBytes (v : Nat) : Nat → List Nat
  | 0 => []
  | L + 1 => toBEBytes (v / 256) L ++ [v % 256]

/-- Model of `bytes.findIndex(b => b === 0)` followed by
`bytes.slice(0, endIndex)`: the bytes of the buffer before the first zero
byte (the whole buffer when no zero byte occurs). -/
def bytesBeforeZero (bs : List Nat) : List Nat :=
  bs.takeWhile (fun b => b ≠ 0)

/-! ### Basic codec lemmas -/

theorem padBytes_length (bs : List Nat) (L : Nat) :
    (padBytes bs L).length = L := by
  simp only [padBytes, List.length_append, List.length_map,
    List.length_replicate, List.length_take]
  omega

theorem padBytes_lt (bs : List Nat) (L : Nat) :
    ∀ b ∈ padBytes bs L, b < 256 := by
  intro b hb
  simp only [padBytes, List.mem_append, List.mem_map, List.mem_replicate] at hb
  rcases hb with ⟨x, _, rfl⟩ | ⟨_, rfl⟩
  · exact Nat.mod_lt _ (by omega)
  · omega

theorem beNat_append_singleton (bs : List Nat) (b : Nat) :
    beNat (bs ++ [b]) = beNat bs * 256 + b := by
  simp [beNat, List.foldl_append]

/-- Rendering the big-endian value of a byte buffer recovers the buffer. -/
theorem toBEBytes_beNat (bs : List Nat) (hb : ∀ b ∈ bs, b < 256) :
    toBEBytes (beNat bs) bs.length = bs := by
  induction bs using List.reverseRecOn with
  | nil => simp [toBEBytes, beNat]
  | append_singleton bs b ih =>
    have hblt : b < 256 := hb b (by simp)
    have hbs : ∀ x ∈ bs, x < 256 := fun x hx => hb x (by simp [hx])
    have hlen : (bs ++ [b]).length = bs.length + 1 := by simp
    rw [hlen, beNat_append_singleton, toBEBytes]
    have hdiv : (beNat bs * 256 + b) / 256 = beNat bs := by omega
    have hmod : (beNat bs * 256 + b) % 256 = b := by omega
    rw [hdiv, hmod, ih hbs]

/-- Scanning for the first zero byte over a zero-free prefix followed by
zero padding recovers exactly the prefix. -/
theorem bytesBeforeZero_append_replicate (bs : List Nat) (k : Nat)
    (hz : ∀ b ∈ bs, b ≠ 0) :
    bytesBeforeZero (bs ++ List.replicate k 0) = bs := by
  induction bs with
  | nil =>
    cases k with
    | zero => simp [bytesBeforeZero]
    | succ k => simp [bytesBeforeZero, List.replicate_succ, List.takeWhile]
  | cons b bs ih =>
    have hb : b ≠ 0 := hz b (by simp)
    have hbs : ∀ x ∈ bs, x ≠ 0 := fun x hx => hz x (by simp [hx])
    simp only [List.cons_append, bytesBeforeZero, List.takeWhile] at *
    have hd : decide (b ≠ 0) = true := by simp [hb]
    rw [hd]
    exact congrArg (b :: ·) (ih hbs)

/-! ## UTF-8 layer

The codec sits between the platform text functions: `TextEncoder().encode`
(UTF-8 encoding of a string) on the encode side and `TextDecoder().decode`
on the decode side. `TextDecoder` is constructed without `{fatal: true}`,
so it follows the WHATWG replacement behaviour: every maximal invalid
subsequence is replaced by U+FFFD and decoding never throws. We model both
the default (lossy) mode and the fatal mode, the latter to express what
"the prefix is not valid UTF-8" means. Strings are lists of Unicode scalar
values. -/

/-- Unicode scalar value: any codepoint below 0x110000 that is not a
UTF-16 surrogate. JS strings handed to `TextEncoder` produce exactly
sequences of these (lone surrogates are themselves replaced by U+FFFD,
which is a scalar value). -/
def ValidScalar (c : Nat) : Prop :=
  c < 0xD800 ∨ (0xE000 ≤ c ∧ c < 0x110000)

instance (c : Nat) : Decidable (ValidScalar c) := by
  unfold ValidScalar; infer_instance

/-- UTF-8 encoding of one scalar value (the `TextEncoder` byte layout). -/
def utf8EncodeChar (c : Nat) : List Nat :=
  if c < 0x80 then [c]
  else if c < 0x800 then [0xC0 + c / 64, 0x80 + c % 64]
  else if c < 0x10000 then
    [0xE0 + c / 4096, 0x80 + c / 64 % 64, 0x80 + c % 64]
  else
    [0xF0 + c / 262144, 0x80 + c / 4096 % 64, 0x80 + c / 64 % 64,
     0x80 + c % 64]

/-- UTF-8 encoding of a string (`TextEncoder().encode`). -/
def utf8Encode (cs : List Nat) : List Nat :=
  cs.flatMap utf8EncodeChar

/-- Lower bound of the first continuation byte for a given lead byte
(WHATWG UTF-8 decoder). -/
def contLo (b : Nat) : Nat :=
  if b = 0xE0 then 0xA0 else if b = 0xF0 then 0x90 else 0x80

/-- Upper bound of the first continuation byte for a given lead byte
(WHATWG UTF-8 decoder). -/
def contHi (b : Nat) : Nat :=
  if b = 0xED then 0x9F else if b = 0xF4 then 0x8F else 0xBF

/-- One step of the WHATWG UTF-8 decoder: given the next byte `b` and the
remaining stream, either decode one scalar value (`some c`) or report an
error (`none`), together with the not-yet-consumed rest of the stream.
On an error the offending byte is pushed back (maximal-subpart
behaviour), except for the invalid lead byte itself, which is consumed. -/
def utf8Step (b : Nat) (rest : List Nat) : Option Nat × List Nat :=
  if b < 0x80 then (some b, rest)
  else if 0xC2 ≤ b ∧ b ≤ 0xDF then
    match rest with
    | [] => (none, [])
    | b1 :: r1 =>
      if 0x80 ≤ b1 ∧ b1 ≤ 0xBF then (some ((b % 32) * 64 + b1 % 64), r1)
      else (none, b1 :: r1)
  else if 0xE0 ≤ b ∧ b ≤ 0xEF then
    match rest with
    | [] => (none, [])
    | b1 :: r1 =>
      if contLo b ≤ b1 ∧ b1 ≤ contHi b then
        match r1 with
        | [] => (none, [])
        | b2 :: r2 =>
          if 0x80 ≤ b2 ∧ b2 ≤ 0xBF then
            (some ((b % 16) * 4096 + (b1 % 64) * 64 + b2 % 64), r2)
          else (none, b2 :: r2)
      else (none, b1 :: r1)
  else if 0xF0 ≤ b ∧ b ≤ 0xF4 then
    match rest with
    | [] => (none, [])
    | b1 :: r1 =>
      if contLo b ≤ b1 ∧ b1 ≤ contHi b then
        match r1 with
        | [] => (none, [])
        | b2 :: r2 =>
          if 0x80 ≤ b2 ∧ b2 ≤ 0xBF then
            match r2 with
            | [] => (none, [])
            | b3 :: r3 =>
              if 0x80 ≤ b3 ∧ b3 ≤ 0xBF then
                (some ((b % 8) * 262144 + (b1 % 64) * 4096 +
                  (b2 % 64) * 64 + b3 % 64), r3)
              else (none, b3 :: r3)
          else (none, b2 :: r2)
      else (none, b1 :: r1)
  else (none, rest)

theorem utf8Step_length (b : Nat) (rest : List Nat) :
    (utf8Step b rest).2.length ≤ rest.length := by
  unfold utf8Step
  repeat' split
  all_goals simp_all
  all_goals omega

/-- Fuel-indexed lossy UTF-8 decoder; with fuel at least the length of the
input this is the WHATWG decoder in replacement (non-fatal) mode. -/
def utf8DecodeLossyFuel : Nat → List Nat → List Nat
  | _, [] => []
  | 0, _ :: _ => []
  | fuel + 1, b :: rest =>
    (match (utf8Step b rest).1 with
     | some c => c
     | none => 0xFFFD) :: utf8DecodeLossyFuel fuel (utf8Step b rest).2

/-- Model of `new TextDecoder().decode` (default, non-fatal mode): decode
UTF-8, replacing every maximal invalid subsequence by U+FFFD. -/
def utf8DecodeLossy (bs : List Nat) : List Nat :=
  utf8DecodeLossyFuel bs.length bs

/-- Fuel-indexed fatal UTF-8 decoder; `none` on the first invalid byte. -/
def utf8DecodeStrictFuel : Nat → List Nat → Option (List Nat)
  | _, [] => some []
  | 0, _ :: _ => none
  | fuel + 1, b :: rest =>
    match utf8Step b rest with
    | (some c, r) => (utf8DecodeStrictFuel fuel r).map (fun cs => c :: cs)
    | (none, _) => none

/-- Model of `new TextDecoder("utf-8", {fatal: true}).decode`: decode UTF-8,
failing on any invalid input. Used to state what a valid UTF-8 prefix is. -/
def utf8DecodeStrict (bs : List Nat) : Option (List Nat) :=
  utf8DecodeStrictFuel bs.length bs

/-! ### Fuel irrelevance and single-step equations -/

theorem utf8DecodeLossyFuel_eq (fuel : Nat) :
    ∀ (fuel' : Nat) (bs : List Nat), bs.length ≤ fuel → bs.length ≤ fuel' →
      utf8DecodeLossyFuel fuel bs = utf8DecodeLossyFuel fuel' bs := by
  induction fuel with
  | zero =>
    intro fuel' bs h _
    cases bs with
    | nil => cases fuel' <;> rfl
    | cons b rest => simp at h
  | succ fuel ih =>
    intro fuel' bs h h'
    cases bs with
    | nil => cases fuel' <;> rfl
    | cons b rest =>
      cases fuel' with
      | zero => simp at h'
      | succ fuel' =>
        simp only [utf8DecodeLossyFuel]
        have hlen := utf8Step_length b rest
        simp only [List.length_cons] at h h'
        rw [ih fuel' (utf8Step b rest).2 (by omega) (by omega)]

theorem utf8DecodeStrictFuel_eq (fuel : Nat) :
    ∀ (fuel' : Nat) (bs : List Nat), bs.length ≤ fuel → bs.length ≤ fuel' →
      utf8DecodeStrictFuel fuel bs = utf8DecodeStrictFuel fuel' bs := by
  induction fuel with
  | zero =>
    intro fuel' bs h _
    cases bs with
    | nil => cases fuel' <;> rfl
    | cons b rest => simp at h
  | succ fuel ih =>
    intro fuel' bs h h'
    cases bs with
    | nil => cases fuel' <;> rfl
    | cons b rest =>
      cases fuel' with
      | zero => simp at h'
      | succ fuel' =>
        simp only [utf8DecodeStrictFuel]
        have hlen := utf8Step_length b rest
        simp only [List.length_cons] at h h'
        rcases hstep : utf8Step b rest with ⟨oc, r⟩
        have hr : r.length ≤ rest.length := by rw [hstep] at hlen; exact hlen
        cases oc with
        | none => rfl
        | some c =>
          exact congrArg (Option.map (fun cs => c :: cs))
            (ih fuel' r (by omega) (by omega))

theorem utf8DecodeLossy_cons (b : Nat) (rest : List Nat) :
    utf8DecodeLossy (b :: rest) =
      (match (utf8Step b rest).1 with
       | some c => c
       | none => 0xFFFD) :: utf8DecodeLossy (utf8Step b rest).2 := by
  show utf8DecodeLossyFuel (rest.length + 1) (b :: rest) = _
  rw [utf8DecodeLossyFuel]
  exact congrArg (_ :: ·)
    (utf8DecodeLossyFuel_eq rest.length _ _ (utf8Step_length b rest) le_rfl)

theorem utf8DecodeStrict_cons (b : Nat) (rest : List Nat) :
    utf8DecodeStrict (b :: rest) =
      match utf8Step b rest with
      | (some c, r) => (utf8DecodeStrict r).map (fun cs => c :: cs)
      | (none, _) => none := by
  show utf8DecodeStrictFuel (rest.length + 1) (b :: rest) = _
  rw [utf8DecodeStrictFuel]
  rcases hstep : utf8Step b rest with ⟨oc, r⟩
  have hr : r.length ≤ rest.length := by
    have := utf8Step_length b rest; rw [hstep] at this; exact this
  cases oc with
  | none => rfl
  | some c =>
    simp only []
    rw [utf8DecodeStrictFuel_eq rest.length r.length r hr le_rfl]
    rfl

/-! ### The decoder inverts the encoder on scalar values -/

theorem utf8Step_enc1 (c : Nat) (h2 : c < 0x80) (tail : List Nat) :
    utf8Step c tail = (some c, tail) := by
  unfold utf8Step
  rw [if_pos h2]

theorem utf8Step_enc2 (c : Nat) (h1 : 0x80 ≤ c) (h2 : c < 0x800)
    (tail : List Nat) :
    utf8Step (0xC0 + c / 64) ((0x80 + c % 64) :: tail) = (some c, tail) := by
  have ha : ¬ (0xC0 + c / 64 < 0x80) := by omega
  have hb : 0xC2 ≤ 0xC0 + c / 64 ∧ 0xC0 + c / 64 ≤ 0xDF := by omega
  have hc : 0x80 ≤ 0x80 + c % 64 ∧ 0x80 + c % 64 ≤ 0xBF := by omega
  unfold utf8Step
  rw [if_neg ha, if_pos hb]
  simp only [if_pos hc]
  have hv : (0xC0 + c / 64) % 32 * 64 + (0x80 + c % 64) % 64 = c := by omega
  rw [hv]

theorem utf8Step_enc3 (c : Nat) (h1 : 0x800 ≤ c) (h2 : c < 0x10000)
    (hs : c < 0xD800 ∨ 0xE000 ≤ c) (tail : List Nat) :
    utf8Step (0xE0 + c / 4096)
      ((0x80 + c / 64 % 64) :: (0x80 + c % 64) :: tail) = (some c, tail) := by
  have ha : ¬ (0xE0 + c / 4096 < 0x80) := by omega
  have hb : ¬ (0xC2 ≤ 0xE0 + c / 4096 ∧ 0xE0 + c / 4096 ≤ 0xDF) := by omega
  have hcr : 0xE0 ≤ 0xE0 + c / 4096 ∧ 0xE0 + c / 4096 ≤ 0xEF := by omega
  have hlo : contLo (0xE0 + c / 4096) ≤ 0x80 + c / 64 % 64 := by
    unfold contLo
    by_cases h0 : c < 0x1000
    · have : 0xE0 + c / 4096 = 0xE0 := by omega
      rw [this, if_pos rfl]
      omega
    · have hne : ¬ (0xE0 + c / 4096 = 0xE0) := by omega
      have hne' : ¬ (0xE0 + c / 4096 = 0xF0) := by omega
      rw [if_neg hne, if_neg hne']
      omega
  have hhi : 0x80 + c / 64 % 64 ≤ contHi (0xE0 + c / 4096) := by
    unfold contHi
    by_cases h0 : 0xD000 ≤ c ∧ c < 0xE000
    · have : 0xE0 + c / 4096 = 0xED := by omega
      rw [this, if_pos rfl]
      omega
    · have hne : ¬ (0xE0 + c / 4096 = 0xED) := by omega
      have hne' : ¬ (0xE0 + c / 4096 = 0xF4) := by omega
      rw [if_neg hne, if_neg hne']
      omega
  have hc2 : 0x80 ≤ 0x80 + c % 64 ∧ 0x80 + c % 64 ≤ 0xBF := by omega
  unfold utf8Step
  rw [if_neg ha, if_neg hb, if_pos hcr]
  simp only [if_pos (And.intro hlo hhi), if_pos hc2]
  have hv : (0xE0 + c / 4096) % 16 * 4096 +
      (0x80 + c / 64 % 64) % 64 * 64 + (0x80 + c % 64) % 64 = c := by omega
  rw [hv]

theorem utf8Step_enc4 (c : Nat) (h1 : 0x10000 ≤ c) (h2 : c < 0x110000)
    (tail : List Nat) :
    utf8Step (0xF0 + c / 262144)
      ((0x80 + c / 4096 % 64) :: (0x80 + c / 64 % 64) :: (0x80 + c % 64) :: tail) =
      (some c, tail) := by
  have ha : ¬ (0xF0 + c / 262144 < 0x80) := by omega
  have hb : ¬ (0xC2 ≤ 0xF0 + c / 262144 ∧ 0xF0 + c / 262144 ≤ 0xDF) := by
    omega
  have hc : ¬ (0xE0 ≤ 0xF0 + c / 262144 ∧ 0xF0 + c / 262144 ≤ 0xEF) := by
    omega
  have hdr : 0xF0 ≤ 0xF0 + c / 262144 ∧ 0xF0 + c / 262144 ≤ 0xF4 := by omega
  have hlo : contLo (0xF0 + c / 262144) ≤ 0x80 + c / 4096 % 64 := by
    unfold contLo
    have hne : ¬ (0xF0 + c / 262144 = 0xE0) := by omega
    rw [if_neg hne]
    by_cases h0 : c < 0x40000
    · have : 0xF0 + c / 262144 = 0xF0 := by omega
      rw [this, if_pos rfl]
      omega
    · have hne' : ¬ (0xF0 + c / 262144 = 0xF0) := by omega
      rw [if_neg hne']
      omega
  have hhi : 0x80 + c / 4096 % 64 ≤ contHi (0xF0 + c / 262144) := by
    unfold contHi
    have hne : ¬ (0xF0 + c / 262144 = 0xED) := by omega
    rw [if_neg hne]
    by_cases h0 : 0x100000 ≤ c
    · have : 0xF0 + c / 262144 = 0xF4 := by omega
      rw [this, if_pos rfl]
      omega
    · have hne' : ¬ (0xF0 + c / 262144 = 0xF4) := by omega
      rw [if_neg hne']
      omega
  have hc2 : 0x80 ≤ 0x80 + c / 64 % 64 ∧ 0x80 + c / 64 % 64 ≤ 0xBF := by omega
  have hc3 : 0x80 ≤ 0x80 + c % 64 ∧ 0x80 + c % 64 ≤ 0xBF := by omega
  unfold utf8Step
  rw [if_neg ha, if_neg hb, if_neg hc, if_pos hdr]
  simp only [if_pos (And.intro hlo hhi), if_pos hc2, if_pos hc3]
  have hv : (0xF0 + c / 262144) % 8 * 262144 +
      (0x80 + c / 4096 % 64) % 64 * 4096 +
      (0x80 + c / 64 % 64) % 64 * 64 + (0x80 + c % 64) % 64 = c := by omega
  rw [hv]

/-- Decoding one encoded scalar value in front of any remaining stream
yields that scalar value and leaves exactly the remaining stream. -/
theorem utf8DecodeLossy_encodeChar_append (c : Nat) (h : ValidScalar c)
    (tail : List Nat) :
    utf8DecodeLossy (utf8EncodeChar c ++ tail) = c :: utf8DecodeLossy tail := by
  have hlt : c < 0x110000 := by rcases h with h | ⟨_, h⟩ <;> omega
  unfold utf8EncodeChar
  by_cases h1 : c < 0x80
  · rw [if_pos h1]
    rw [List.cons_append, List.nil_append, utf8DecodeLossy_cons,
      utf8Step_enc1 c h1 tail]
  · rw [if_neg h1]
    by_cases h2 : c < 0x800
    · rw [if_pos h2]
      rw [List.cons_append, List.cons_append, List.nil_append,
        utf8DecodeLossy_cons, utf8Step_enc2 c (by omega) h2 tail]
    · rw [if_neg h2]
      by_cases h3 : c < 0x10000
      · rw [if_pos h3]
        have hs : c < 0xD800 ∨ 0xE000 ≤ c := by
          rcases h with h | ⟨h, _⟩
          · exact Or.inl h
          · exact Or.inr h
        rw [List.cons_append, List.cons_append, List.cons_append,
          List.nil_append, utf8DecodeLossy_cons,
          utf8Step_enc3 c (by omega) h3 hs tail]
      · rw [if_neg h3]
        rw [List.cons_append, List.cons_append, List.cons_append,
          List.cons_append, List.nil_append, utf8DecodeLossy_cons,
          utf8Step_enc4 c (by omega) hlt tail]

theorem utf8Encode_nil : utf8Encode [] = [] := rfl

theorem utf8Encode_cons (c : Nat) (cs : List Nat) :
    utf8Encode (c :: cs) = utf8EncodeChar c ++ utf8Encode cs := by
  simp [utf8Encode]

/-- The lossy decoder inverts the encoder on any sequence of scalar values:
encoding a JS string to UTF-8 and decoding it back is the identity. -/
theorem utf8DecodeLossy_utf8Encode (cs : List Nat)
    (h : ∀ c ∈ cs, ValidScalar c) :
    utf8DecodeLossy (utf8Encode cs) = cs := by
  induction cs with
  | nil => rfl
  | cons c cs ih =>
    have hc : ValidScalar c := h c (by simp)
    have hcs : ∀ x ∈ cs, ValidScalar x := fun x hx => h x (by simp [hx])
    rw [utf8Encode_cons, utf8DecodeLossy_encodeChar_append c hc, ih hcs]

/-- Every byte produced by the encoder fits in one byte. -/
theorem utf8EncodeChar_lt (c : Nat) (h : c < 0x110000) :
    ∀ b ∈ utf8EncodeChar c, b < 256 := by
  intro b hb
  unfold utf8EncodeChar at hb
  by_cases h1 : c < 0x80
  · rw [if_pos h1] at hb; simp at hb; omega
  · rw [if_neg h1] at hb
    by_cases h2 : c < 0x800
    · rw [if_pos h2] at hb; simp at hb; rcases hb with rfl | rfl <;> omega
    · rw [if_neg h2] at hb
      by_cases h3 : c < 0x10000
      · rw [if_pos h3] at hb; simp at hb
        rcases hb with rfl | rfl | rfl <;> omega
      · rw [if_neg h3] at hb; simp at hb
        rcases hb with rfl | rfl | rfl | rfl <;> omega

theorem utf8Encode_lt (cs : List Nat) (h : ∀ c ∈ cs, ValidScalar c) :
    ∀ b ∈ utf8Encode cs, b < 256 := by
  intro b hb
  simp only [utf8Encode, List.mem_flatMap] at hb
  rcases hb with ⟨c, hc, hbc⟩
  have : c < 0x110000 := by
    rcases h c hc with h' | ⟨_, h'⟩ <;> omega
  exact utf8EncodeChar_lt c this b hbc

/-! ## High-level codec: decode -/

/-- Model of `bigIntToString` (useDecrypt.ts): render the payload as 32
big-endian bytes, cut at the first zero byte, and decode the prefix with
`new TextDecoder().decode` (default replacement mode). The result is the
decoded string as a list of scalar values. -/
def bigIntToString (value : Nat) : List Nat :=
  utf8DecodeLossy (bytesBeforeZero (toBEBytes value 32))

theorem map_mod_of_lt (bs : List Nat) (h : ∀ b ∈ bs, b < 256) :
    bs.map (fun b => b % 256) = bs := by
  induction bs with
  | nil => rfl
  | cons b bs ih =>
    have hb : b % 256 = b := Nat.mod_eq_of_lt (h b (by simp))
    have hbs : ∀ x ∈ bs, x < 256 := fun x hx => h x (by simp [hx])
    simp [hb, ih hbs]

/-- Padding a short zero-free byte sequence and reading it back through the
big-endian integer recovers the sequence before the padding. -/
theorem bytesBeforeZero_toBEBytes_encodeBytes (bs : List Nat) (L : Nat)
    (hlen : bs.length ≤ L) (hlt : ∀ b ∈ bs, b < 256)
    (hz : ∀ b ∈ bs, b ≠ 0) :
    bytesBeforeZero (toBEBytes (encodeBytes L bs) L) = bs := by
  have htake : bs.take L = bs := List.take_of_length_le hlen
  have hpad : padBytes bs L = bs ++ List.replicate (L - bs.length) 0 := by
    unfold padBytes
    rw [htake, map_mod_of_lt bs hlt]
  have hplen : (bs ++ List.replicate (L - bs.length) 0).length = L := by
    simp
    omega
  have hplt : ∀ b ∈ bs ++ List.replicate (L - bs.length) 0, b < 256 := by
    intro b hb
    rcases List.mem_append.1 hb with hb | hb
    · exact hlt b hb
    · have := List.eq_of_mem_replicate hb
      omega
  unfold encodeBytes
  rw [hpad]
  set ps := bs ++ List.replicate (L - bs.length) 0 with hps
  rw [← hplen, toBEBytes_beNat ps hplt, hps,
    bytesBeforeZero_append_replicate bs _ hz]

/-! ## The PrivateMessenger contract

Shallow embedding of `PrivateMessenger.sol`. Addresses, ciphertext handles
and timestamps are `Nat`. The FHE access-control list maintained by the
coprocessor (mutated through `FHE.allowThis` / `FHE.allow`) is carried in
the state as the list of `(handle, principal)` grants in creation order.
A reverting call is modelled as `Except.error`; Solidity reverts roll back
every storage write, which `applySend` makes explicit. -/

namespace PrivateMessenger

/-- The `Message` struct of the contract. -/
structure Message where
  sender : Nat
  recipient : Nat
  encryptedContent : Nat
  timestamp : Nat
deriving DecidableEq, Repr

/-- Contract storage plus the FHE coprocessor ACL. -/
structure State where
  inbox : Nat → List Message
  outbox : Nat → List Message
  acl : List (Nat × Nat)

/-- The custom errors of the contract. -/
inductive SendError where
  | invalidRecipient
  | cannotMessageSelf
deriving DecidableEq, Repr

/-- The `MessageSent(from, to, timestamp)` event. -/
structure MessageSentEvent where
  fromAddr : Nat
  toAddr : Nat
  timestamp : Nat
deriving DecidableEq, Repr

/-- The initial state of a freshly deployed contract: both mappings empty,
no ACL grants. -/
def initialState : State :=
  { inbox := fun _ => [], outbox := fun _ => [], acl := [] }

/-- Model of `sendMessage(to, encryptedContent, inputProof)` called by
`msgSender` at `block.timestamp = blockTimestamp` on the contract deployed
at `thisAddr` (the `to` parameter is `toAddr` here, `to` being reserved). `FHE.fromExternal` validation is the boundary to the
coprocessor; the validated handle is `encryptedContent`. On success the
new state and the emitted event are returned; a revert returns the error
and (per EVM semantics) leaves no trace in storage. -/
def sendMessage (thisAddr : Nat) (st : State)
    (msgSender toAddr encryptedContent blockTimestamp : Nat) :
    Except SendError (State × MessageSentEvent) :=
  if toAddr = 0 then .error .invalidRecipient
  else if toAddr = msgSender then .error .cannotMessageSelf
  else
    let newMessage : Message :=
      { sender := msgSender, recipient := toAddr,
        encryptedContent := encryptedContent, timestamp := blockTimestamp }
    .ok
      ({ inbox := fun a =>
           if a = toAddr then st.inbox a ++ [newMessage] else st.inbox a,
         outbox := fun a =>
           if a = msgSender then st.outbox a ++ [newMessage] else st.outbox a,
         acl := st.acl ++
           [(encryptedContent, thisAddr), (encryptedContent, msgSender),
            (encryptedContent, toAddr)] },
       { fromAddr := msgSender, toAddr := toAddr, timestamp := blockTimestamp })

/-- The state after a `sendMessage` transaction: the new state on success,
the unchanged pre-state on revert (EVM rollback). -/
def applySend (thisAddr : Nat) (st : State)
    (msgSender toAddr encryptedContent blockTimestamp : Nat) : State :=
  match sendMessage thisAddr st msgSender toAddr encryptedContent blockTimestamp with
  | .ok (st', _) => st'
  | .error _ => st

/-- Model of `getInboxCount(user)`. -/
def getInboxCount (st : State) (user : Nat) : Nat :=
  (st.inbox user).length

/-- Model of `getOutboxCount(user)`. -/
def getOutboxCount (st : State) (user : Nat) : Nat :=
  (st.outbox user).length

/-- Model of `getInboxMessage(user, index)`: the `(sender, encryptedContent,
timestamp)` triple, or the `"Index out of bounds"` revert. -/
def getInboxMessage (st : State) (user index : Nat) :
    Except String (Nat × Nat × Nat) :=
  if h : index < (st.inbox user).length then
    let message := (st.inbox user).get ⟨index, h⟩
    .ok (message.sender, message.encryptedContent, message.timestamp)
  else .error "Index out of bounds"

/-- Model of `getInboxHandles(user)`: the encrypted content handles of all
inbox messages in insertion order. -/
def getInboxHandles (st : State) (user : Nat) : List Nat :=
  (st.inbox user).map (fun m => m.encryptedContent)

/-- All ACL grants existing for a handle, in creation order: the principals
that may use (and, for user identities, decrypt) the ciphertext. -/
def grantsFor (st : State) (handle : Nat) : List Nat :=
  (st.acl.filter (fun g => g.1 == handle)).map (fun g => g.2)

end PrivateMessenger

/-! ## Client-side decryption orchestration

Shallow embedding of the modular frontend hooks (`useDecrypt.ts`,
`useMessenger.ts`). The Relayer SDK and the wallet are external
collaborators; every call the code makes to them is recorded in an
explicit trace, and their return values (the generated keypair, the wall
clock, and the backend's partial result mapping) are supplied as an
environment. JS `Map`s keyed by handle are modelled as association lists
with unique keys, looked up by first match. -/

/-- A `{handle, contractAddress}` pair as passed to `userDecrypt`. -/
structure HandleContractPair where
  handle : Nat
  contractAddress : Nat
deriving DecidableEq, Repr

/-- The canonical EIP-712 authorization statement composed by
`instance.createEIP712(publicKey, contractAddresses, startTimestamp,
durationDays)`: it binds the ephemeral public key, the target contract
contexts, the issuance timestamp and the validity duration. -/
structure EIP712Statement where
  publicKey : Nat
  contractAddresses : List Nat
  startTimestamp : Nat
  durationDays : Nat
deriving DecidableEq, Repr

/-- One external call made by `useDecrypt.decrypt`, in order. -/
inductive SdkCall where
  | generateKeypair
  | signTypedData (statement : EIP712Statement)
  | userDecrypt (pairs : List HandleContractPair) (publicKey : Nat)
      (statement : EIP712Statement)
deriving DecidableEq, Repr

/-- Whether an SDK call is an ephemeral keypair generation. -/
def SdkCall.isKeypairGen : SdkCall → Bool
  | .generateKeypair => true
  | _ => false

/-- Whether an SDK call is a signature request to the identity owner. -/
def SdkCall.isSignatureRequest : SdkCall → Bool
  | .signTypedData _ => true
  | _ => false

/-- The environment a `decrypt` call runs in: the keypair the SDK returns,
the wall clock at call time, and the (possibly partial) handle-to-payload
mapping the backend returns from `userDecrypt`. -/
structure DecryptEnv where
  keypairPublicKey : Nat
  startTimestamp : Nat
  backendResults : List (Nat × Nat)

/-- The policy validity duration of a decryption capability (7 days). -/
def durationDays : Nat := 7

/-- Model of `useDecrypt.decrypt(handles, signer, userAddress,
contractAddresses)`: on an empty batch it returns the empty map at once;
otherwise it generates one ephemeral keypair, composes one EIP-712
statement over the full `contractAddresses` set, obtains one signature
over it, and redeems it with a single `userDecrypt` call carrying every
requested pair. Returns the result map together with the trace of
external calls. -/
def decrypt (handles : List HandleContractPair)
    (contractAddresses : List Nat) (env : DecryptEnv) :
    List (Nat × Nat) × List SdkCall :=
  if handles.length = 0 then ([], [])
  else
    let eip712Message : EIP712Statement :=
      { publicKey := env.keypairPublicKey,
        contractAddresses := contractAddresses,
        startTimestamp := env.startTimestamp,
        durationDays := durationDays }
    (env.backendResults,
     [SdkCall.generateKeypair,
      SdkCall.signTypedData eip712Message,
      SdkCall.userDecrypt handles env.keypairPublicKey eip712Message])

/-- JS `Map.get` on an association list (`Map.has` is `isSome` of this). -/
def lookupMap {α : Type} (m : List (Nat × α)) (handle : Nat) : Option α :=
  (m.find? (fun p => p.1 == handle)).map (fun p => p.2)

/-- The frontend `Message` interface of `useMessenger.ts` (named
`InboxMessage` here to keep it apart from the contract struct): the string
content is a list of scalar values, `encrypted` is the still-encrypted
marker, and `handle` is the ciphertext handle when known. -/
structure InboxMessage where
  sender : Nat
  content : List Nat
  timestamp : Nat
  encrypted : Bool
  handle : Option Nat
deriving DecidableEq, Repr

/-- The state update `decryptAllInbox` applies to the inbox once the
batched decrypt returns `decryptedMap`: every entry whose handle is
present in the map gets its decoded content and is marked decrypted;
every other entry is returned unchanged. -/
def decryptAllInboxUpdate (inbox : List InboxMessage)
    (decryptedMap : List (Nat × List Nat)) : List InboxMessage :=
  inbox.map fun msg =>
    match msg.handle with
    | some h =>
      match lookupMap decryptedMap h with
      | some content =>
        { msg with content := content, encrypted := false }
      | none => msg
    | none => msg

/-- The state update `decryptInboxMessage(index)` applies to the inbox,
given the map returned by `decryptMessages([message.handle])`. Mirrors the
guards of the source: out-of-range index, missing handle, already
decrypted, and a falsy `decryptedMap.get(...)` (absent, or present with
empty text, the empty string being falsy in JS) all leave the inbox
unchanged; otherwise only the entry at `index` is replaced. -/
def decryptInboxMessageUpdate (inbox : List InboxMessage) (index : Nat)
    (decryptedMap : List (Nat × List Nat)) : List InboxMessage :=
  match inbox[index]? with
  | none => inbox
  | some message =>
    match message.handle with
    | none => inbox
    | some h =>
      if message.encrypted = false then inbox
      else
        match lookupMap decryptedMap h with
        | none => inbox
        | some decryptedContent =>
          if decryptedContent = [] then inbox
          else
            inbox.mapIdx fun i msg =>
              if i = index then
                { msg with content := decryptedContent, encrypted := false }
              else msg

/-! ## Claim C1: codec round trip -/

/-- C1: for every string `s` (a sequence of Unicode scalar values) whose
UTF-8 encoding is at most 32 bytes — the payload width of the cited codec
pair, which a fortiori covers the 8-byte bound — and contains no zero
byte, decoding the payload produced by encoding `s` yields `s` again:
`bigIntToString(stringToBigInt(s)) == s`. -/
theorem C1_codec_roundtrip (cs : List Nat) (hv : ∀ c ∈ cs, ValidScalar c)
    (hlen : (utf8Encode cs).length ≤ 32) (hz : 0 ∉ utf8Encode cs) :
    bigIntToString (stringToBigInt (utf8Encode cs)) = cs := by
  rw [stringToBigInt_eq_encodeBytes, bigIntToString]
  rw [bytesBeforeZero_toBEBytes_encodeBytes (utf8Encode cs) 32 hlen
    (utf8Encode_lt cs hv) (fun b hb h0 => hz (h0 ▸ hb))]
  exact utf8DecodeLossy_utf8Encode cs hv

/-- Witness for C1 at the string "hi" (codepoints 104, 105). -/
theorem C1_codec_roundtrip_witness :
    bigIntToString (stringToBigInt (utf8Encode [104, 105])) = [104, 105] :=
  C1_codec_roundtrip [104, 105] (by decide) (by decide) (by decide)

/-! ## Claim C8: truncation on over-long messages -/

/-- C8: for every string whose UTF-8 encoding is longer than `L` bytes, the
encoder truncates the byte sequence to exactly its first `L` bytes before
zero-padding (it is a total function, so it never throws or reads out of
bounds), and the payload equals the payload of any other string sharing the
same first `L` UTF-8 bytes. `encodeBytes 32` is `stringToBigInt` and
`encodeBytes 8` is `stringToBigInt64`. -/
theorem C8_truncation (L : Nat) (cs cs2 : List Nat)
    (_hlong : L < (utf8Encode cs).length)
    (hshare : (utf8Encode cs2).take L = (utf8Encode cs).take L) :
    encodeBytes L (utf8Encode cs) = encodeBytes L ((utf8Encode cs).take L) ∧
    encodeBytes L (utf8Encode cs2) = encodeBytes L (utf8Encode cs) := by
  constructor
  · unfold encodeBytes padBytes
    rw [List.take_take, min_self]
  · unfold encodeBytes padBytes
    rw [hshare]

/-- Witness for C8 at `L = 8` with the strings "123456789" and "12345678Z",
which share their first 8 UTF-8 bytes. -/
theorem C8_truncation_witness :
    (8 < (utf8Encode [49, 50, 51, 52, 53, 54, 55, 56, 57]).length) ∧
    (encodeBytes 8 (utf8Encode [49, 50, 51, 52, 53, 54, 55, 56, 57]) =
       encodeBytes 8
         ((utf8Encode [49, 50, 51, 52, 53, 54, 55, 56, 57]).take 8) ∧
     encodeBytes 8 (utf8Encode [49, 50, 51, 52, 53, 54, 55, 56, 90]) =
       encodeBytes 8 (utf8Encode [49, 50, 51, 52, 53, 54, 55, 56, 57])) :=
  ⟨by decide, C8_truncation 8 _ _ (by decide) (by decide)⟩

/-! ## Claim C4: behaviour on invalid UTF-8 prefixes

The claim states that decode fails with `InvalidEncoding` on an invalid
prefix and never substitutes replacement characters. The code constructs
`TextDecoder` without `{fatal: true}`, so decoding never throws and every
invalid subsequence is replaced by U+FFFD. The payload
`0xFF * 256 ^ 31` renders as the byte 0xFF followed by zero padding; its
prefix `[0xFF]` is not valid UTF-8, yet `bigIntToString` succeeds and
returns the one-character replacement string. -/

/-- Counterexample to C4: a payload whose prefix before the first zero byte
is invalid UTF-8 (fatal-mode decoding rejects it), on which the code's
decode nevertheless returns the U+FFFD replacement string instead of
failing. -/
theorem C4_counterexample :
    utf8DecodeStrict (bytesBeforeZero (toBEBytes (0xFF * 256 ^ 31) 32)) =
      none ∧
    bigIntToString (0xFF * 256 ^ 31) = [0xFFFD] := by
  decide

/-- Helper for the amended C4: whenever fatal-mode UTF-8 decoding fails,
replacement-mode decoding emits at least one U+FFFD. -/
theorem replacement_of_strict_none :
    ∀ (n : Nat) (bs : List Nat), bs.length ≤ n →
      utf8DecodeStrict bs = none → 0xFFFD ∈ utf8DecodeLossy bs := by
  intro n
  induction n with
  | zero =>
    intro bs h1 h2
    cases bs with
    | nil => simp [utf8DecodeStrict, utf8DecodeStrictFuel] at h2
    | cons b rest => simp at h1
  | succ n ih =>
    intro bs h1 h2
    cases bs with
    | nil => simp [utf8DecodeStrict, utf8DecodeStrictFuel] at h2
    | cons b rest =>
      rw [utf8DecodeStrict_cons] at h2
      rw [utf8DecodeLossy_cons]
      rcases hstep : utf8Step b rest with ⟨oc, r⟩
      rw [hstep] at h2
      cases oc with
      | none =>
        exact List.mem_cons_self _ _
      | some c =>
        simp only [Option.map_eq_none'] at h2
        have hr : r.length ≤ rest.length := by
          have := utf8Step_length b rest
          rw [hstep] at this
          exact this
        have hlen : rest.length ≤ n := by
          simp only [List.length_cons] at h1
          omega
        have hm : 0xFFFD ∈ utf8DecodeLossy r := ih r (by omega) h2
        exact List.mem_cons_of_mem _ hm

/-- C4 amended: for every payload whose bytes before the first zero byte do
not form valid UTF-8, decode does not fail — it substitutes U+FFFD
replacement characters for the invalid subsequences (non-fatal WHATWG
decoding) and returns the resulting text, rather than propagating an
`InvalidEncoding` error. -/
theorem C4_amended_replacement (v : Nat)
    (hinvalid : utf8DecodeStrict (bytesBeforeZero (toBEBytes v 32)) = none) :
    0xFFFD ∈ bigIntToString v :=
  replacement_of_strict_none
    (bytesBeforeZero (toBEBytes v 32)).length _ le_rfl hinvalid

/-- Witness for the amended C4 at the payload `0xFE * 256 ^ 31` (the byte
0xFE is never valid in UTF-8). -/
theorem C4_amended_replacement_witness :
    utf8DecodeStrict (bytesBeforeZero (toBEBytes (0xFE * 256 ^ 31) 32)) =
      none ∧
    0xFFFD ∈ bigIntToString (0xFE * 256 ^ 31) :=
  ⟨by decide, C4_amended_replacement (0xFE * 256 ^ 31) (by decide)⟩

/-! ## Claim C2: rejection before any mutation -/

/-- C2: for every sender, recipient and handle, `sendMessage` reverts with
`InvalidRecipient` when the recipient is the zero address and with
`CannotMessageSelf` (the code's name for the spec's `SelfMessage`) when the
recipient equals the sender; in both cases the transaction leaves the
ledger state — inbox, outbox and ACL grants — unchanged and emits no event
(the checks precede every mutation). The self-message conjunct assumes a
nonzero sender, since the zero address cannot originate a call and a zero
self-send trips the recipient check first. -/
theorem C2_reject_no_mutation (thisAddr : Nat) (st : PrivateMessenger.State)
    (alice handle ts : Nat) (ha : alice ≠ 0) :
    (PrivateMessenger.sendMessage thisAddr st alice 0 handle ts =
       .error .invalidRecipient ∧
     PrivateMessenger.applySend thisAddr st alice 0 handle ts = st) ∧
    (PrivateMessenger.sendMessage thisAddr st alice alice handle ts =
       .error .cannotMessageSelf ∧
     PrivateMessenger.applySend thisAddr st alice alice handle ts = st) := by
  unfold PrivateMessenger.applySend PrivateMessenger.sendMessage
  simp [ha]

/-- Witness for C2 on a fresh contract at address 5 with sender 1. -/
theorem C2_reject_no_mutation_witness :
    (PrivateMessenger.sendMessage 5 PrivateMessenger.initialState 1 0 7 9 =
       .error .invalidRecipient ∧
     PrivateMessenger.applySend 5 PrivateMessenger.initialState 1 0 7 9 =
       PrivateMessenger.initialState) ∧
    (PrivateMessenger.sendMessage 5 PrivateMessenger.initialState 1 1 7 9 =
       .error .cannotMessageSelf ∧
     PrivateMessenger.applySend 5 PrivateMessenger.initialState 1 1 7 9 =
       PrivateMessenger.initialState) :=
  C2_reject_no_mutation 5 PrivateMessenger.initialState 1 7 9 (by decide)

/-! ## Claim C3: effects of a successful append -/

/-- C3: for every ledger state and every valid `sendMessage(alice → bob)`
with `prior = getInboxCount(bob)`: afterwards `getInboxCount(bob)` is
`prior + 1`, `getInboxMessage(bob, prior)` returns a record whose sender
(counterparty) is `alice` and whose handle is the sent handle, and
`getOutboxCount(alice)` has likewise increased by exactly one. -/
theorem C3_append_effects (thisAddr : Nat) (st : PrivateMessenger.State)
    (alice bob handle ts : Nat) (h0 : bob ≠ 0) (h1 : bob ≠ alice) :
    PrivateMessenger.getInboxCount
        (PrivateMessenger.applySend thisAddr st alice bob handle ts) bob =
      PrivateMessenger.getInboxCount st bob + 1 ∧
    PrivateMessenger.getInboxMessage
        (PrivateMessenger.applySend thisAddr st alice bob handle ts) bob
        (PrivateMessenger.getInboxCount st bob) = .ok (alice, handle, ts) ∧
    PrivateMessenger.getOutboxCount
        (PrivateMessenger.applySend thisAddr st alice bob handle ts) alice =
      PrivateMessenger.getOutboxCount st alice + 1 := by
  unfold PrivateMessenger.applySend PrivateMessenger.sendMessage
  rw [if_neg h0, if_neg h1]
  refine ⟨?_, ?_, ?_⟩
  · simp [PrivateMessenger.getInboxCount]
  · unfold PrivateMessenger.getInboxMessage PrivateMessenger.getInboxCount
    have hlt : (st.inbox bob).length <
        ((if bob = bob then st.inbox bob ++
            [{ sender := alice, recipient := bob,
               encryptedContent := handle, timestamp := ts }]
          else st.inbox bob) : List PrivateMessenger.Message).length := by
      rw [if_pos rfl]
      simp
    rw [dif_pos hlt]
    simp [List.getElem_concat_length]
  · simp [PrivateMessenger.getOutboxCount]

/-- Witness for C3: sender 1 sends handle 7 to recipient 2 on a fresh
contract at address 5. -/
theorem C3_append_effects_witness :
    PrivateMessenger.getInboxCount
        (PrivateMessenger.applySend 5 PrivateMessenger.initialState 1 2 7 9)
        2 =
      PrivateMessenger.getInboxCount PrivateMessenger.initialState 2 + 1 ∧
    PrivateMessenger.getInboxMessage
        (PrivateMessenger.applySend 5 PrivateMessenger.initialState 1 2 7 9)
        2 (PrivateMessenger.getInboxCount PrivateMessenger.initialState 2) =
      .ok (1, 7, 9) ∧
    PrivateMessenger.getOutboxCount
        (PrivateMessenger.applySend 5 PrivateMessenger.initialState 1 2 7 9)
        1 =
      PrivateMessenger.getOutboxCount PrivateMessenger.initialState 1 + 1 :=
  C3_append_effects 5 PrivateMessenger.initialState 1 2 7 9 (by decide)
    (by decide)

/-! ## Claim C5: ACL grants per message

The claim states that exactly two grants are created per message — one for
the sender and one for the recipient, and none for any other principal.
The code additionally calls `FHE.allowThis(content)`, granting the
messenger contract itself access to the handle, so three grants are
created and one of them is for a principal other than the sender and the
recipient. -/

/-- Counterexample to C5: on a fresh contract deployed at address 5, after
sender 1 sends handle 7 to recipient 2, the handle carries three grants,
not two, and one of them names the contract address 5, which is neither
the sender nor the recipient. -/
theorem C5_counterexample :
    PrivateMessenger.grantsFor
        (PrivateMessenger.applySend 5 PrivateMessenger.initialState 1 2 7 9)
        7 = [5, 1, 2] ∧
    (PrivateMessenger.grantsFor
        (PrivateMessenger.applySend 5 PrivateMessenger.initialState 1 2 7 9)
        7).length ≠ 2 ∧
    5 ∈ PrivateMessenger.grantsFor
        (PrivateMessenger.applySend 5 PrivateMessenger.initialState 1 2 7 9)
        7 ∧
    (5 : Nat) ≠ 1 ∧ (5 : Nat) ≠ 2 := by
  decide

/-- C5 amended: every successful send of one message creates exactly three
access grants on the minted handle, in order: one for the messenger
contract itself (`FHE.allowThis`), one for the sender's identity, and one
for the recipient's identity — and no grant for any other principal
(`grantsFor` returns exactly that list when the handle is fresh). -/
theorem C5_amended_three_grants (thisAddr : Nat)
    (st : PrivateMessenger.State) (alice bob handle ts : Nat)
    (h0 : bob ≠ 0) (h1 : bob ≠ alice)
    (hfresh : st.acl.filter (fun g => g.1 == handle) = []) :
    PrivateMessenger.grantsFor
        (PrivateMessenger.applySend thisAddr st alice bob handle ts) handle =
      [thisAddr, alice, bob] := by
  unfold PrivateMessenger.applySend PrivateMessenger.sendMessage
  rw [if_neg h0, if_neg h1]
  unfold PrivateMessenger.grantsFor
  simp only [List.filter_append, hfresh, List.nil_append]
  simp [List.filter]

/-- Witness for the amended C5: fresh contract at address 6, sender 2
sends handle 11 to recipient 3. -/
theorem C5_amended_three_grants_witness :
    PrivateMessenger.grantsFor
        (PrivateMessenger.applySend 6 PrivateMessenger.initialState 2 3 11 4)
        11 = [6, 2, 3] :=
  C5_amended_three_grants 6 PrivateMessenger.initialState 2 3 11 4
    (by decide) (by decide) (by decide)

/-! ## Claim C6: one capability per batch -/

/-- C6: for every non-empty batch of requested handle/contract pairs, the
batched `decrypt` issues exactly one capability: its external-call trace
contains exactly one keypair generation and exactly one signature request,
and the signed statement — binding the ephemeral public key and the target
contract contexts — is the very statement under which the single
`userDecrypt` call redeems all of the requested pairs at once. -/
theorem C6_single_capability (handles : List HandleContractPair)
    (contractAddresses : List Nat) (env : DecryptEnv)
    (hne : handles ≠ []) :
    ((decrypt handles contractAddresses env).2.countP
        (fun c => c.isKeypairGen) = 1) ∧
    ((decrypt handles contractAddresses env).2.countP
        (fun c => c.isSignatureRequest) = 1) ∧
    ∃ statement : EIP712Statement,
      statement.publicKey = env.keypairPublicKey ∧
      statement.contractAddresses = contractAddresses ∧
      SdkCall.signTypedData statement ∈
        (decrypt handles contractAddresses env).2 ∧
      SdkCall.userDecrypt handles env.keypairPublicKey statement ∈
        (decrypt handles contractAddresses env).2 := by
  have hlen : ¬ (handles.length = 0) := by
    simpa [List.length_eq_zero] using hne
  unfold decrypt
  rw [if_neg hlen]
  refine ⟨?_, ?_, ?_⟩
  · simp [List.countP_cons, SdkCall.isKeypairGen]
  · simp [List.countP_cons, SdkCall.isSignatureRequest]
  · exact ⟨{ publicKey := env.keypairPublicKey,
             contractAddresses := contractAddresses,
             startTimestamp := env.startTimestamp,
             durationDays := durationDays },
      rfl, rfl, by simp, by simp⟩

/-- Witness for C6: a two-element batch decrypted under one capability. -/
theorem C6_single_capability_witness :
    ((decrypt [⟨7, 3⟩, ⟨8, 3⟩] [3] ⟨11, 100, [(7, 42), (8, 43)]⟩).2.countP
        (fun c => c.isKeypairGen) = 1) ∧
    ((decrypt [⟨7, 3⟩, ⟨8, 3⟩] [3] ⟨11, 100, [(7, 42), (8, 43)]⟩).2.countP
        (fun c => c.isSignatureRequest) = 1) ∧
    ∃ statement : EIP712Statement,
      statement.publicKey = 11 ∧
      statement.contractAddresses = [3] ∧
      SdkCall.signTypedData statement ∈
        (decrypt [⟨7, 3⟩, ⟨8, 3⟩] [3] ⟨11, 100, [(7, 42), (8, 43)]⟩).2 ∧
      SdkCall.userDecrypt [⟨7, 3⟩, ⟨8, 3⟩] 11 statement ∈
        (decrypt [⟨7, 3⟩, ⟨8, 3⟩] [3] ⟨11, 100, [(7, 42), (8, 43)]⟩).2 :=
  C6_single_capability [⟨7, 3⟩, ⟨8, 3⟩] [3] ⟨11, 100, [(7, 42), (8, 43)]⟩
    (by decide)

/-! ## Claim C9: empty batch mints no capability -/

/-- C9: calling the batched `decrypt` with an empty list of handle/contract
pairs returns the empty mapping immediately with an empty external-call
trace: no ephemeral keypair is generated and no signature is requested
(no capability is minted for an empty batch). -/
theorem C9_empty_batch (contractAddresses : List Nat) (env : DecryptEnv) :
    decrypt [] contractAddresses env = ([], []) := rfl

/-! ## Claim C7: partial results keep entries encrypted -/

/-- C7: for every inbox and every result mapping returned by the batched
decrypt, an entry whose handle the mapping omits is returned unchanged by
`decryptAllInbox` — still marked encrypted with its placeholder content,
never as decoded empty text — while an entry whose handle is present is
updated with its decoded text and marked decrypted. -/
theorem C7_partial_results (inbox : List InboxMessage)
    (decryptedMap : List (Nat × List Nat)) (i : Nat) (msg : InboxMessage)
    (h : Nat) (hmsg : inbox[i]? = some msg) (hh : msg.handle = some h) :
    (lookupMap decryptedMap h = none →
       (decryptAllInboxUpdate inbox decryptedMap)[i]? = some msg) ∧
    (∀ t, lookupMap decryptedMap h = some t →
       (decryptAllInboxUpdate inbox decryptedMap)[i]? =
         some { msg with content := t, encrypted := false }) := by
  constructor
  · intro hnone
    rw [decryptAllInboxUpdate, List.getElem?_map, hmsg]
    simp [hh, hnone]
  · intro t ht
    rw [decryptAllInboxUpdate, List.getElem?_map, hmsg]
    simp [hh, ht]

/-- Witness for C7: a two-entry inbox where the backend's map contains the
first handle and omits the second; the second entry survives unchanged,
the first is decoded. -/
theorem C7_partial_results_witness :
    (lookupMap [(7, [104])] 8 = none →
       (decryptAllInboxUpdate
          [⟨1, [99], 0, true, some 7⟩, ⟨2, [99], 0, true, some 8⟩]
          [(7, [104])])[1]? = some ⟨2, [99], 0, true, some 8⟩) ∧
    (∀ t, lookupMap [(7, [104])] 8 = some t →
       (decryptAllInboxUpdate
          [⟨1, [99], 0, true, some 7⟩, ⟨2, [99], 0, true, some 8⟩]
          [(7, [104])])[1]? =
         some { (⟨2, [99], 0, true, some 8⟩ : InboxMessage) with
                  content := t, encrypted := false }) :=
  C7_partial_results
    [⟨1, [99], 0, true, some 7⟩, ⟨2, [99], 0, true, some 8⟩]
    [(7, [104])] 1 ⟨2, [99], 0, true, some 8⟩ 8 (by decide) (by decide)

/-! ## Claim C10: empty decoded text leaves the entry unchanged -/

/-- C10: when single-message decryption succeeds and the returned mapping
contains the message's handle but the decoded text is the empty string
(falsy in JS), `decryptInboxMessage` leaves the inbox unchanged — the
entry stays marked encrypted with its placeholder content, exactly as if
the mapping had not contained the handle at all. -/
theorem C10_empty_text_unchanged (inbox : List InboxMessage) (index : Nat)
    (msg : InboxMessage) (h : Nat) (decryptedMap : List (Nat × List Nat))
    (hmsg : inbox[index]? = some msg) (hh : msg.handle = some h)
    (hm : lookupMap decryptedMap h = some []) :
    decryptInboxMessageUpdate inbox index decryptedMap = inbox := by
  unfold decryptInboxMessageUpdate
  rw [hmsg]
  simp only [hh]
  cases hmenc : msg.encrypted with
  | false => simp
  | true => simp [hm]

/-- Witness for C10: a one-entry inbox whose handle decodes to the empty
string; the update is the identity. -/
theorem C10_empty_text_unchanged_witness :
    decryptInboxMessageUpdate [⟨1, [99], 0, true, some 7⟩] 0 [(7, [])] =
      [⟨1, [99], 0, true, some 7⟩] :=
  C10_empty_text_unchanged [⟨1, [99], 0, true, some 7⟩] 0
    ⟨1, [99], 0, true, some 7⟩ 7 [(7, [])] (by decide) (by decide)
    (by decide)

end Messenger
